import Mathlib

/-!
Shallow embedding of the Stockfish UCI adapter
(`src/engine/stockfish_wrapper.py`) of the lc0-service repository.

Conventions of the embedding:
* Python exceptions become `Option`/`Except` values.
* The `python-chess` library (an external dependency, not part of this
  repository) is modelled as an abstract oracle `ChessOracle` over a board
  type `B` and a move type `M`: `fromUci` returns `none` where
  `chess.Move.from_uci` raises `InvalidMoveError` (malformed string, or
  equal origin and destination other than the null move `"0000"`),
  `isLegal b m` models `m in board.legal_moves`, `sanMove b m` is the
  string `board.san(m)` returns when it returns, `sanCrashes b m` is true
  where `board.san(m)` raises its uncaught `AssertionError` (a non-null
  move from an empty origin square) — note `board.san` does NOT check
  legality: it renders the null move as `"--"` and renders any move with
  an occupied origin, legal or not — and `push` models `board.push(m)`.
* The regex field extraction of `_parse_analysis` (one regex per field) is
  modelled by a structured `InfoLine` record: each `Option` field is the
  result of the corresponding `pattern.search(line)`.  The guard
  `if "multipv" not in line: continue` together with
  `if not mpv_match: continue` collapses to `InfoLine.multipv = none`,
  since a successful regex match implies the substring is present.
* Python `dict[int, MoveCandidate]` becomes an association list with
  insert-or-replace update; `sorted(candidates.keys())` becomes
  `List.insertionSort`.
* Python floats are modelled as real numbers (`_estimate_wdl` only).
-/

/-- Modelled from the spec: `MoveCandidate` (src/engine/move_candidates.py is
not under src/; fields are fixed by the constructor call in
`_parse_analysis` and by spec section 3).  `policy` is a float in the code,
modelled as a rational. -/
structure MoveCandidate where
  move : String
  move_san : String
  score_cp : Int
  score_wdl : Int × Int × Int
  pv : List String
  pv_san : List String
  nodes : Nat
  depth : Nat
  policy : Rat
  rank : Nat
  multipv_index : Nat
deriving DecidableEq

/-- Modelled from the spec: `PositionAnalysis` (src/engine/move_candidates.py
is not under src/; fields are fixed by the constructor call at the end of
`_parse_analysis` and by spec section 3). -/
structure PositionAnalysis where
  fen : String
  candidates : List MoveCandidate
  evaluation_cp : Int
  evaluation_wdl : Int × Int × Int
  total_nodes : Nat
  time_ms : Nat
  nps : Nat
  depth : Nat
  seldepth : Nat
  multipv : Nat
deriving DecidableEq

/-- Abstract interface to the python-chess library (an external capability,
per spec section 6: the move-legality/notation oracle). -/
structure ChessOracle (B M : Type) where
  boardOfFen : String → B
  fromUci : String → Option M
  isLegal : B → M → Bool
  sanMove : B → M → String
  sanCrashes : B → M → Bool
  push : B → M → B

/-- One `info ... multipv ...` line after regex field extraction.  Each field
is `some v` when the corresponding pattern of `_parse_analysis` matches the
raw line, `none` otherwise. -/
structure InfoLine where
  multipv : Option Nat
  depth : Option Nat
  seldepth : Option Nat
  nodes : Option Nat
  time : Option Nat
  nps : Option Nat
  scoreCp : Option Int
  scoreMate : Option Int
  pv : Option (List String)
deriving DecidableEq

/-- Score extraction of `_parse_analysis` (lines 261-270): a mate score takes
priority and is folded into a bounded centipawn proxy, otherwise the direct
centipawn value, defaulting to 0. -/
def scoreOfLine (l : InfoLine) : Int :=
  match l.scoreMate with
  | some mate_in => if mate_in > 0 then 10000 - |mate_in| else -10000 + |mate_in|
  | none =>
    match l.scoreCp with
    | some cp => cp
    | none => 0

/-- The PV-to-SAN walk of `_parse_analysis` (lines 281-292): convert the
coordinate moves to human notation against a scratch board, stopping at the
first move that fails to parse or is illegal (the `break` branches). -/
def pvToSan {B M : Type} (O : ChessOracle B M) (board : B) : List String → List String
  | [] => []
  | move_uci :: rest =>
    match O.fromUci move_uci with
    | none => []
    | some move =>
      if O.isLegal board move then
        O.sanMove board move :: pvToSan O (O.push board move) rest
      else
        []

/-- Outcome of converting a candidate's head move
(`_parse_analysis` lines 296-301): `failed` models a caught
`ValueError`/`chess.InvalidMoveError` from `chess.Move.from_uci` (the
`continue`); `crashed` models the `AssertionError` that `board.san`
raises on a non-null move from an empty origin square, which is NOT in
the caught exception tuple and aborts the whole parse; `ok` carries the
string `board.san` returns — for the null move and for any move with an
occupied origin, legal or not, since `board.san` does not check
legality. -/
inductive HeadSan
  | failed
  | crashed
  | ok (san : String)
deriving DecidableEq

/-- The head-move conversion of `_parse_analysis` (lines 296-301):
`chess.Move.from_uci` then `board.san` inside
`except (ValueError, chess.InvalidMoveError)`. -/
def headMoveSan {B M : Type} (O : ChessOracle B M) (board : B) (move_uci : String) :
    HeadSan :=
  match O.fromUci move_uci with
  | none => .failed
  | some move =>
    if O.sanCrashes board move then .crashed
    else .ok (O.sanMove board move)

/-- Insert-or-replace update of a Python `dict[int, _]` modelled as an
association list (`candidates[mpv_idx] = MoveCandidate(...)`, line 303). -/
def dictInsert {α : Type} (k : Nat) (v : α) :
    List (Nat × α) → List (Nat × α)
  | [] => [(k, v)]
  | (k0, v0) :: rest =>
    if k0 = k then (k, v) :: rest else (k0, v0) :: dictInsert k v rest

/-- The mutable accumulators of `_parse_analysis` (lines 209-215). -/
structure ParseState where
  candidates : List (Nat × MoveCandidate)
  total_nodes : Nat
  time_ms : Nat
  nps : Nat
  max_depth : Nat
  max_seldepth : Nat

/-- Initial accumulator values of `_parse_analysis`. -/
def ParseState.init : ParseState :=
  { candidates := [], total_nodes := 0, time_ms := 0, nps := 0,
    max_depth := 0, max_seldepth := 0 }

/-- Decidable equality for `Except`, needed to evaluate the embedded
fallible functions on concrete inputs. -/
instance {e a : Type} [DecidableEq e] [DecidableEq a] : DecidableEq (Except e a) :=
  fun x y =>
    match x, y with
    | .ok u, .ok v =>
      if h : u = v then isTrue (by rw [h])
      else isFalse (by intro hh; cases hh; exact h rfl)
    | .ok _, .error _ => isFalse (by intro hh; cases hh)
    | .error _, .ok _ => isFalse (by intro hh; cases hh)
    | .error u, .error v =>
      if h : u = v then isTrue (by rw [h])
      else isFalse (by intro hh; cases hh; exact h rfl)

/-- The candidate construction of one loop iteration of `_parse_analysis`
(lines 275-315, without the accumulator updates): `Except.ok none` models
both the `if pv:` guard failing and the `continue` at line 301 (head move
missing or raising a caught exception in `from_uci`); `Except.error`
models the uncaught `AssertionError` from `board.san` on an empty-origin
head, which aborts the whole parse; otherwise the `MoveCandidate(...)`
value assigned to the dictionary — also for null (`"0000"`) and
illegal-but-renderable head moves.  `wdlOf` is the `self._estimate_wdl`
method. -/
def lineCandidate {B M : Type} (O : ChessOracle B M) (board : B)
    (wdlOf : Int → Int × Int × Int) (l : InfoLine) (mpv_idx : Nat) :
    Except String (Option MoveCandidate) :=
  let score_cp := scoreOfLine l
  let wdl := wdlOf score_cp
  let pv := l.pv.getD []
  let pv_san := pvToSan O board pv
  match pv with
  | [] => .ok none
  | move_uci :: _ =>
    match headMoveSan O board move_uci with
    | .failed => .ok none
    | .crashed => .error "AssertionError: san() expects move to be legal or null"
    | .ok move_san =>
      .ok (some { move := move_uci, move_san := move_san, score_cp := score_cp,
                  score_wdl := wdl, pv := pv, pv_san := pv_san,
                  nodes := l.nodes.getD 0, depth := l.depth.getD 0, policy := 0,
                  rank := mpv_idx, multipv_index := mpv_idx })

/-- One iteration of the `for line in info_lines` loop of `_parse_analysis`
(lines 228-315).  A line whose multipv field does not match is skipped
entirely (`continue` before any accumulator update); a line whose head PV
move raises a caught exception updates the telemetry accumulators but
leaves the dictionary unchanged (the `continue` at line 301 skips only
the dictionary assignment); an uncaught `AssertionError` from `board.san`
propagates and aborts the loop. -/
def processLine {B M : Type} (O : ChessOracle B M) (board : B)
    (wdlOf : Int → Int × Int × Int) (st : ParseState) (l : InfoLine) :
    Except String ParseState :=
  match l.multipv with
  | none => .ok st
  | some mpv_idx =>
    let depth := l.depth.getD 0
    let seldepth := l.seldepth.getD 0
    let nodes := l.nodes.getD 0
    let time_ms := match l.time with
      | some t => max st.time_ms t
      | none => st.time_ms
    let nps := match l.nps with
      | some v => max st.nps v
      | none => st.nps
    let total_nodes := max st.total_nodes nodes
    let max_depth := max st.max_depth depth
    let max_seldepth := max st.max_seldepth seldepth
    match lineCandidate O board wdlOf l mpv_idx with
    | .error e => .error e
    | .ok cand =>
      let candidates :=
        match cand with
        | none => st.candidates
        | some c => dictInsert mpv_idx c st.candidates
      .ok { candidates := candidates, total_nodes := total_nodes,
            time_ms := time_ms, nps := nps, max_depth := max_depth,
            max_seldepth := max_seldepth }

/-- The final assembly of `_parse_analysis` (lines 317-337): sort the
surviving dictionary keys ascending, look the candidates up in key order,
take the overall evaluation from the first candidate (neutral defaults
when there is none), and package the telemetry. -/
def analysisOfState (fen : String) (st : ParseState) : PositionAnalysis :=
  let sorted_keys := List.insertionSort (fun a b => a ≤ b) (st.candidates.map Prod.fst)
  let sorted_candidates := sorted_keys.filterMap (fun k => List.lookup k st.candidates)
  let evaluation_cp := match sorted_candidates.head? with
    | some c => c.score_cp
    | none => 0
  let evaluation_wdl := match sorted_candidates.head? with
    | some c => c.score_wdl
    | none => (333, 334, 333)
  { fen := fen, candidates := sorted_candidates, evaluation_cp := evaluation_cp,
    evaluation_wdl := evaluation_wdl, total_nodes := st.total_nodes,
    time_ms := st.time_ms, nps := st.nps, depth := st.max_depth,
    seldepth := st.max_seldepth, multipv := sorted_candidates.length }

/-- `StockfishWrapper._parse_analysis` (lines 204-337).  `wdlOf` is the
`self._estimate_wdl` method; `bestmove_line` is a parameter of the Python
method that its body never reads.  `Except.error` models the uncaught
`AssertionError` raised by `board.san` on a non-null head move from an
empty origin square. -/
def parseAnalysis {B M : Type} (O : ChessOracle B M) (wdlOf : Int → Int × Int × Int)
    (fen : String) (info_lines : List InfoLine) (bestmove_line : String) :
    Except String PositionAnalysis :=
  let board := O.boardOfFen fen
  (info_lines.foldlM (processLine O board wdlOf) ParseState.init).map
    (analysisOfState fen)

/-- Python `str.startswith`, implemented over character lists (the
built-in `String.startsWith` does not reduce inside the kernel). -/
def startsWithStr (s pre : String) : Bool := pre.toList.isPrefixOf s.toList

/-- Outcome vocabulary for a sentinel wait.  `found` is a normal return with
the collected lines; `timedOut` is the spec's `ProtocolTimeout` outcome (the
embedded code never produces it); `hangs` models the Python loop running out
of buffered stream content and never returning (at end-of-stream
`readline()` yields empty strings forever, so the loop neither returns nor
raises). -/
inductive WaitOutcome
  | found (lines : List String)
  | timedOut
  | hangs
deriving DecidableEq

/-- `StockfishWrapper._wait_for` (lines 136-143) over the finite list of
lines the stream will deliver: collect lines until one starts with
`expected`, returning all collected lines including the sentinel. -/
def waitFor (expected : String) : List String → WaitOutcome
  | [] => .hangs
  | l :: rest =>
    if startsWithStr l expected then .found [l]
    else
      match waitFor expected rest with
      | .found ls => .found (l :: ls)
      | .timedOut => .timedOut
      | .hangs => .hangs

/-- The substring test `"pv" in line` of `_read_until_bestmove` (line 150),
on the character list of the line. -/
def hasPvToken : List Char → Bool
  | [] => false
  | 'p' :: 'v' :: _ => true
  | _ :: rest => hasPvToken rest

/-- `"pv" in line` on a string. -/
def containsPv (s : String) : Bool := hasPvToken s.toList

/-- Outcome vocabulary for the read-until-bestmove wait; constructors as in
`WaitOutcome`. -/
inductive ReadOutcome
  | found (info_lines : List String) (bestmove_line : String)
  | timedOut
  | hangs
deriving DecidableEq

/-- `StockfishWrapper._read_until_bestmove` (lines 145-153): collect the
lines starting with `"info"` that contain `"pv"`, return them together with
the first line starting with `"bestmove"`, and drop everything else. -/
def readUntilBestmove : List String → ReadOutcome
  | [] => .hangs
  | l :: rest =>
    if startsWithStr l "info" && containsPv l then
      match readUntilBestmove rest with
      | .found ls bm => .found (l :: ls) bm
      | .timedOut => .timedOut
      | .hangs => .hangs
    else if startsWithStr l "bestmove" then .found [] l
    else readUntilBestmove rest

/-- The adapter's mutable state: `self._process`, `self._reader` and
`self._writer` modelled by presence booleans, `self._is_ready`, and the
configured search width `self.config.multipv` (never mutated by the
wrapper). -/
structure EngineState where
  process : Bool
  reader : Bool
  writer : Bool
  is_ready : Bool
  multipv : Nat
deriving DecidableEq

/-- The state after the handle-clearing epilogue of `stop` (lines 111-114). -/
def clearedState (st : EngineState) : EngineState :=
  { process := false, reader := false, writer := false, is_ready := false,
    multipv := st.multipv }

/-- Externally visible process actions taken by `stop`. -/
inductive StopAction
  | sendQuit
  | killProcess
deriving DecidableEq

/-- `StockfishWrapper.stop` (lines 96-114).  `writeOk` is the fate of the
pipe write in `_send_command("quit")` (false models a raised
`ConnectionResetError`/`BrokenPipeError` on a dead pipe);
`exitsWithinGrace` tells whether `self._process.wait()` finishes within the
5-second `asyncio.wait_for` window.  On a raised write the exception
propagates before the clearing epilogue runs, so the state is returned
unchanged. -/
def stopEngine (st : EngineState) (writeOk : Bool) (exitsWithinGrace : Bool) :
    Except String Unit × EngineState × List StopAction :=
  if st.process = false then (.ok (), st, [])
  else if st.writer = false then (.error "Stockfish non avviato", st, [])
  else if writeOk = false then (.error "stream write failed", st, [.sendQuit])
  else if exitsWithinGrace then (.ok (), clearedState st, [.sendQuit])
  else (.ok (), clearedState st, [.sendQuit, .killProcess])

/-- `StockfishWrapper.is_ready` (lines 365-373).  `probe` is the combined
fate of `_send_command("isready")` and `_wait_for("readyok")` on a started
adapter (an error models a raised write failure or a read failure).  The
method has no exception handler, so a probe error propagates. -/
def isReadyCheck (st : EngineState) (probe : Except String Unit) : Except String Bool :=
  if st.is_ready = false then .ok false
  else
    match probe with
    | .error e => .error e
    | .ok _ => .ok true

/-- Lock and command events traced by `analyze_position`. -/
inductive UciEvent
  | lockAcquire
  | lockRelease
  | send (cmd : String)
deriving DecidableEq

/-- The `go` command construction of `analyze_position` (lines 177-188):
depth wins over movetime, which wins over the node-to-depth heuristic
`max(15, min(30, 10 + nodes // 100000))`, else `go depth 20`. -/
def goCommand (nodes depth time_ms : Option Nat) : String :=
  match depth with
  | some d => "go depth " ++ toString d
  | none =>
    match time_ms with
    | some t => "go movetime " ++ toString t
    | none =>
      match nodes with
      | some n => "go depth " ++ toString (max 15 (min 30 (10 + n / 100000)))
      | none => "go depth 20"

/-- `StockfishWrapper.analyze_position` (lines 155-202).  `readResult` is
the fate of `_read_until_bestmove()` (an error models a raised stream
failure during the search or the read of its output); the sends themselves
are traced as events.  On a successful read, the result is whatever
`_parse_analysis` produces — including its own error when the parse
raises, which happens after the MultiPV restore (line 202 follows
lines 196-199).  The `async with self._lock` block is traced as
`lockAcquire`/`lockRelease`, released on every exit path by the context
manager.  The adapter state (readiness flag, handles, configured multipv)
is never mutated by this method. -/
def analyzePosition {B M : Type} (O : ChessOracle B M) (wdlOf : Int → Int × Int × Int)
    (st : EngineState) (fen : String) (nodes depth time_ms num_moves : Option Nat)
    (readResult : Except String (List InfoLine × String)) :
    Except String PositionAnalysis × EngineState × List UciEvent :=
  if st.is_ready = false then
    (.error "Stockfish non pronto, chiamare start() prima", st,
      [.lockAcquire, .lockRelease])
  else
    let setCmds : List UciEvent :=
      match num_moves with
      | some n =>
        if n ≠ st.multipv then
          [.send ("setoption name MultiPV value " ++ toString n)]
        else []
      | none => []
    let posCmd : UciEvent := .send ("position fen " ++ fen)
    let goCmd : UciEvent := .send (goCommand nodes depth time_ms)
    match readResult with
    | .error e =>
      (.error e, st, [.lockAcquire] ++ setCmds ++ [posCmd, goCmd] ++ [.lockRelease])
    | .ok (info_lines, bestmove_line) =>
      let restoreCmds : List UciEvent :=
        match num_moves with
        | some n =>
          if n ≠ st.multipv then
            [.send ("setoption name MultiPV value " ++ toString st.multipv)]
          else []
        | none => []
      (parseAnalysis O wdlOf fen info_lines bestmove_line, st,
        [.lockAcquire] ++ setCmds ++ [posCmd, goCmd] ++ restoreCmds ++ [.lockRelease])

/-- `StockfishWrapper._estimate_wdl` (lines 339-363), with Python floats
modelled as real numbers.  Python `int(x)` truncates toward zero; both
arguments here are provably non-negative, so it is the floor. -/
noncomputable def estimate_wdl (score_cp : Int) : Int × Int × Int :=
  let score : ℝ := (score_cp : ℝ) / 100
  let win_prob : ℝ := 1 / (1 + Real.exp (-score * 0.5))
  let draw_prob : ℝ := 0.3 * Real.exp (-|score| * 0.3)
  let total : ℝ := win_prob + draw_prob + (1 - win_prob)
  let win : Int := ⌊win_prob / total * 1000⌋
  let draw : Int := ⌊draw_prob / total * 1000⌋
  let loss : Int := 1000 - win - draw
  (win, draw, loss)

/-- Auxiliary (spec vocabulary): a variation is fully walk-legal from
`board` when every move parses and is legal on the scratch board as it is
pushed. -/
def walkLegal {B M : Type} (O : ChessOracle B M) (board : B) : List String → Bool
  | [] => true
  | u :: rest =>
    match O.fromUci u with
    | none => false
    | some m => O.isLegal board m && walkLegal O (O.push board m) rest

/-- Auxiliary: the scratch board after pushing a fully walk-legal prefix. -/
def pushAll {B M : Type} (O : ChessOracle B M) (board : B) : List String → B
  | [] => board
  | u :: rest =>
    match O.fromUci u with
    | some m => pushAll O (O.push board m) rest
    | none => board

/-- Auxiliary (spec vocabulary): a move that is malformed (fails to parse)
or illegal on the given board. -/
def moveFails {B M : Type} (O : ChessOracle B M) (board : B) (u : String) : Bool :=
  match O.fromUci u with
  | none => true
  | some m => !(O.isLegal board m)

/-- Invariant of the candidates dictionary while `_parse_analysis` folds
over the info lines: keys are unique and every stored candidate is exactly
the parsed content of some processed line carrying its key as multipv
index. -/
def StInv {B M : Type} (O : ChessOracle B M) (board : B)
    (wdlOf : Int → Int × Int × Int) (big : List InfoLine) (st : ParseState) : Prop :=
  (st.candidates.map Prod.fst).Nodup ∧
  ∀ p ∈ st.candidates, ∃ l ∈ big, l.multipv = some p.1 ∧
    lineCandidate O board wdlOf l p.1 = Except.ok (some p.2)

/-- A small concrete instantiation of the chess oracle, used only to
evaluate the embedded functions on explicit inputs, mirroring python-chess
behavior on a handful of designated strings: `"a1a1"` fails `from_uci`
(equal origin and destination), any other 4-character string parses —
`"0000"` is the null move (renders as `"--"`, never legal), `"e2e5"`
stands for a well-formed illegal move with occupied origin (renders
without raising), `"h3h4"` stands for a move from an empty origin square
(`board.san` raises the uncaught `AssertionError`). -/
def exOracle : ChessOracle (List String) String :=
  { boardOfFen := fun _ => []
    fromUci := fun s =>
      if s == "a1a1" then none
      else if s.length = 4 then some s
      else none
    isLegal := fun _ m => !(m == "0000") && !(m == "e2e5") && !(m == "h3h4")
    sanMove := fun _ m => if m == "0000" then "--" else String.append "S" m
    sanCrashes := fun _ m => m == "h3h4"
    push := fun b m => m :: b }

/-- A concrete stand-in for the `self._estimate_wdl` method parameter, used
only to evaluate the parser on explicit inputs. -/
def exWdl : Int → Int × Int × Int := fun _ => (400, 300, 300)

/-- A concrete info line with all telemetry fields populated. -/
def exLine (idx : Nat) (cp : Int) (pv : List String) : InfoLine :=
  { multipv := some idx, depth := some 20, seldepth := some 30,
    nodes := some 1000, time := some 50, nps := some 20000,
    scoreCp := some cp, scoreMate := none, pv := some pv }

/-- A concrete adapter state: started, ready, configured MultiPV 10. -/
def exReadyState : EngineState :=
  { process := true, reader := true, writer := true, is_ready := true,
    multipv := 10 }

/-- A concrete adapter state: never started. -/
def exStoppedState : EngineState :=
  { process := false, reader := false, writer := false, is_ready := false,
    multipv := 10 }

/-- The candidate the example oracle produces for `exLine 1 30 ["e2e4"]`. -/
def exCand1 : MoveCandidate :=
  { move := "e2e4", move_san := "Se2e4", score_cp := 30,
    score_wdl := (400, 300, 300), pv := ["e2e4"], pv_san := ["Se2e4"],
    nodes := 1000, depth := 20, policy := 0, rank := 1, multipv_index := 1 }

/-- The candidate the example oracle produces for
`exLine 1 30 ["e2e4", "d2d4"]`. -/
def exCand2 : MoveCandidate :=
  { move := "e2e4", move_san := "Se2e4", score_cp := 30,
    score_wdl := (400, 300, 300), pv := ["e2e4", "d2d4"],
    pv_san := ["Se2e4", "Sd2d4"], nodes := 1000, depth := 20, policy := 0,
    rank := 1, multipv_index := 1 }

/-- The candidate the example oracle produces for
`exLine 1 44 ["e2e5", "d2d4"]`: the head move parses and `board.san`
renders it although it is illegal, so the candidate exists — with an
empty human-notation variation, since the legality-checked walk stops
immediately. -/
def exCand8 : MoveCandidate :=
  { move := "e2e5", move_san := "Se2e5", score_cp := 44,
    score_wdl := (400, 300, 300), pv := ["e2e5", "d2d4"], pv_san := [],
    nodes := 1000, depth := 20, policy := 0, rank := 1, multipv_index := 1 }

/-- The analysis the example oracle produces for the single line
`exLine 1 30 ["e2e4"]`. -/
def exAnalysis1 : PositionAnalysis :=
  { fen := "startpos", candidates := [exCand1], evaluation_cp := 30,
    evaluation_wdl := (400, 300, 300), total_nodes := 1000, time_ms := 50,
    nps := 20000, depth := 20, seldepth := 30, multipv := 1 }

/-- The analysis the example oracle produces for the single line
`exLine 1 30 ["e2e4", "d2d4"]`. -/
def exAnalysis2 : PositionAnalysis :=
  { fen := "startpos", candidates := [exCand2], evaluation_cp := 30,
    evaluation_wdl := (400, 300, 300), total_nodes := 1000, time_ms := 50,
    nps := 20000, depth := 20, seldepth := 30, multipv := 1 }

/-- The analysis the example oracle produces for the two lines
`exLine 1 30 ["e2e4"]` and `exLine 1 44 ["e2e5", "d2d4"]`: the later
line's illegal-but-renderable head overwrites the earlier candidate. -/
def exAnalysis8 : PositionAnalysis :=
  { fen := "startpos", candidates := [exCand8], evaluation_cp := 44,
    evaluation_wdl := (400, 300, 300), total_nodes := 1000, time_ms := 50,
    nps := 20000, depth := 20, seldepth := 30, multipv := 1 }

/-- The analysis the example oracle produces for the single line
`exLine 1 30 ["zz"]`, whose head move fails `from_uci`: telemetry is
recorded but no candidate survives. -/
def exAnalysis9 : PositionAnalysis :=
  { fen := "startpos", candidates := [], evaluation_cp := 0,
    evaluation_wdl := (333, 334, 333), total_nodes := 1000, time_ms := 50,
    nps := 20000, depth := 20, seldepth := 30, multipv := 0 }

theorem pvToSan_length_le {B M : Type} (O : ChessOracle B M) (board : B)
    (mvs : List String) : (pvToSan O board mvs).length ≤ mvs.length := by
  induction mvs generalizing board with
  | nil => simp [pvToSan]
  | cons u rest ih =>
    simp only [pvToSan]
    cases O.fromUci u with
    | none => simp
    | some m =>
      by_cases h : O.isLegal board m
      · simpa [h] using ih (O.push board m)
      · simp [h]

theorem pvToSan_length_of_walkLegal {B M : Type} (O : ChessOracle B M) (board : B)
    (mvs : List String) (h : walkLegal O board mvs = true) :
    (pvToSan O board mvs).length = mvs.length := by
  induction mvs generalizing board with
  | nil => simp [pvToSan]
  | cons u rest ih =>
    simp only [walkLegal] at h
    cases hu : O.fromUci u with
    | none => rw [hu] at h; exact absurd h (by simp)
    | some m =>
      rw [hu] at h
      simp only [Bool.and_eq_true] at h
      simp [pvToSan, hu, h.1, ih (O.push board m) h.2]

theorem pvToSan_append_fail {B M : Type} (O : ChessOracle B M) (board : B)
    (pre : List String) (u : String) (rest : List String)
    (hpre : walkLegal O board pre = true)
    (hu : moveFails O (pushAll O board pre) u = true) :
    pvToSan O board (pre ++ u :: rest) = pvToSan O board pre := by
  induction pre generalizing board with
  | nil =>
    simp only [pushAll] at hu
    simp only [moveFails] at hu
    cases hfu : O.fromUci u with
    | none => simp [pvToSan, hfu]
    | some m =>
      rw [hfu] at hu
      simp only [Bool.not_eq_true'] at hu
      simp [pvToSan, hfu, hu]
  | cons v pre ih =>
    simp only [walkLegal] at hpre
    cases hv : O.fromUci v with
    | none => rw [hv] at hpre; exact absurd hpre (by simp)
    | some m =>
      rw [hv] at hpre
      simp only [Bool.and_eq_true] at hpre
      simp only [pushAll, hv] at hu
      simp [pvToSan, hv, hpre.1, ih (O.push board m) hpre.2 hu]

theorem mem_dictInsert {α : Type} {p : Nat × α} {k : Nat} {v : α}
    {l : List (Nat × α)} (h : p ∈ dictInsert k v l) : p = (k, v) ∨ p ∈ l := by
  induction l with
  | nil => simpa [dictInsert] using h
  | cons q rest ih =>
    obtain ⟨k0, v0⟩ := q
    simp only [dictInsert] at h
    by_cases hk : k0 = k
    · rw [if_pos hk] at h
      rcases List.mem_cons.mp h with h | h
      · exact Or.inl h
      · exact Or.inr (List.mem_cons_of_mem _ h)
    · rw [if_neg hk] at h
      rcases List.mem_cons.mp h with h | h
      · exact Or.inr (List.mem_cons.mpr (Or.inl h))
      · rcases ih h with h | h
        · exact Or.inl h
        · exact Or.inr (List.mem_cons_of_mem _ h)

theorem mem_keys_dictInsert {α : Type} (a k : Nat) (v : α) (l : List (Nat × α)) :
    a ∈ (dictInsert k v l).map Prod.fst ↔ a = k ∨ a ∈ l.map Prod.fst := by
  induction l with
  | nil => simp [dictInsert]
  | cons q rest ih =>
    obtain ⟨k0, v0⟩ := q
    simp only [dictInsert]
    by_cases hk : k0 = k
    · subst hk
      simp
    · rw [if_neg hk]
      simp only [List.map_cons, List.mem_cons, ih]
      tauto

theorem nodup_keys_dictInsert {α : Type} (k : Nat) (v : α) {l : List (Nat × α)}
    (h : (l.map Prod.fst).Nodup) : ((dictInsert k v l).map Prod.fst).Nodup := by
  induction l with
  | nil => simp [dictInsert]
  | cons q rest ih =>
    obtain ⟨k0, v0⟩ := q
    simp only [List.map_cons, List.nodup_cons] at h
    simp only [dictInsert]
    by_cases hk : k0 = k
    · subst hk
      simpa [List.nodup_cons] using h
    · rw [if_neg hk]
      simp only [List.map_cons, List.nodup_cons]
      refine ⟨fun hmem => ?_, ih h.2⟩
      rcases (mem_keys_dictInsert k0 k v rest).mp hmem with h0 | h0
      · exact hk h0
      · exact h.1 h0

theorem lookup_dictInsert {α : Type} (k : Nat) (v : α) (l : List (Nat × α)) :
    List.lookup k (dictInsert k v l) = some v := by
  induction l with
  | nil => simp [dictInsert, List.lookup]
  | cons q rest ih =>
    obtain ⟨k0, v0⟩ := q
    simp only [dictInsert]
    by_cases hk : k0 = k
    · rw [if_pos hk]
      simp [List.lookup]
    · rw [if_neg hk]
      have : (k == k0) = false := by
        simp [Nat.beq_eq_true_eq]
        exact fun h => hk h.symm
      simp [List.lookup, this, ih]

theorem lookup_mem {α : Type} {k : Nat} {v : α} {l : List (Nat × α)}
    (h : List.lookup k l = some v) : (k, v) ∈ l := by
  induction l with
  | nil => simp [List.lookup] at h
  | cons q rest ih =>
    obtain ⟨k0, v0⟩ := q
    simp only [List.lookup] at h
    by_cases hk : k = k0
    · subst hk
      simp at h
      subst h
      exact List.mem_cons_self _ _
    · have : (k == k0) = false := by simpa [Nat.beq_eq_true_eq] using hk
      rw [this] at h
      exact List.mem_cons_of_mem _ (ih h)

theorem lookup_of_mem_keys {α : Type} {k : Nat} {l : List (Nat × α)}
    (h : k ∈ l.map Prod.fst) : ∃ v, List.lookup k l = some v := by
  induction l with
  | nil => simp at h
  | cons q rest ih =>
    obtain ⟨k0, v0⟩ := q
    simp only [List.map_cons, List.mem_cons] at h
    by_cases hk : k = k0
    · subst hk
      exact ⟨v0, by simp [List.lookup]⟩
    · have hb : (k == k0) = false := by simpa [Nat.beq_eq_true_eq] using hk
      rcases h with h | h
      · exact absurd h hk
      · obtain ⟨v, hv⟩ := ih h
        exact ⟨v, by simp [List.lookup, hb, hv]⟩

theorem lineCandidate_fields {B M : Type} {O : ChessOracle B M} {board : B}
    {wdlOf : Int → Int × Int × Int} {l : InfoLine} {idx : Nat} {c : MoveCandidate}
    (h : lineCandidate O board wdlOf l idx = Except.ok (some c)) :
    c.rank = idx ∧ c.multipv_index = idx ∧ c.pv = l.pv.getD [] ∧
    c.pv_san = pvToSan O board c.pv ∧ c.score_cp = scoreOfLine l ∧
    c.score_wdl = wdlOf (scoreOfLine l) ∧ c.nodes = l.nodes.getD 0 ∧
    c.depth = l.depth.getD 0 ∧ (∃ rest, c.pv = c.move :: rest) ∧
    headMoveSan O board c.move = HeadSan.ok c.move_san := by
  simp only [lineCandidate] at h
  cases hpv : l.pv.getD [] with
  | nil => rw [hpv] at h; simp at h
  | cons u rest =>
    rw [hpv] at h
    cases hsan : headMoveSan O board u with
    | failed => simp [hsan] at h
    | crashed => simp [hsan] at h
    | ok s =>
      simp only [hsan, Except.ok.injEq, Option.some.injEq] at h
      subst h
      exact ⟨rfl, rfl, rfl, rfl, rfl, rfl, rfl, rfl, ⟨rest, rfl⟩, hsan⟩

theorem stInv_init {B M : Type} (O : ChessOracle B M) (board : B)
    (wdlOf : Int → Int × Int × Int) (big : List InfoLine) :
    StInv O board wdlOf big ParseState.init := by
  constructor
  · simp [ParseState.init]
  · intro p hp
    simp [ParseState.init] at hp

theorem processLine_ok_candidates {B M : Type} (O : ChessOracle B M) (board : B)
    (wdlOf : Int → Int × Int × Int) (st st1 : ParseState) (l : InfoLine)
    (h : processLine O board wdlOf st l = Except.ok st1) :
    st1.candidates = st.candidates ∨
    ∃ idx c, l.multipv = some idx ∧
      lineCandidate O board wdlOf l idx = Except.ok (some c) ∧
      st1.candidates = dictInsert idx c st.candidates := by
  cases hm : l.multipv with
  | none =>
    left
    simp only [processLine, hm] at h
    cases h
    rfl
  | some idx =>
    simp only [processLine, hm] at h
    cases hc : lineCandidate O board wdlOf l idx with
    | error e =>
      rw [hc] at h
      exact Except.noConfusion h
    | ok cand =>
      rw [hc] at h
      cases cand with
      | none =>
        left
        cases h
        rfl
      | some c =>
        right
        refine ⟨idx, c, rfl, hc, ?_⟩
        cases h
        rfl

theorem stInv_processLine {B M : Type} {O : ChessOracle B M} {board : B}
    {wdlOf : Int → Int × Int × Int} {big : List InfoLine} {st st1 : ParseState}
    {l : InfoLine} (hl : l ∈ big)
    (hp : processLine O board wdlOf st l = Except.ok st1)
    (h : StInv O board wdlOf big st) : StInv O board wdlOf big st1 := by
  rcases processLine_ok_candidates O board wdlOf st st1 l hp with
    hsame | ⟨idx, c, hm, hc, heq⟩
  · constructor
    · rw [hsame]
      exact h.1
    · intro p hp2
      rw [hsame] at hp2
      exact h.2 p hp2
  · constructor
    · rw [heq]
      exact nodup_keys_dictInsert idx c h.1
    · intro p hp2
      rw [heq] at hp2
      rcases mem_dictInsert hp2 with hpe | hpe
      · subst hpe
        exact ⟨l, hl, hm, hc⟩
      · exact h.2 p hpe

theorem stInv_foldlM {B M : Type} {O : ChessOracle B M} {board : B}
    {wdlOf : Int → Int × Int × Int} {big : List InfoLine} :
    ∀ (lines : List InfoLine), (∀ l ∈ lines, l ∈ big) →
    ∀ (st stf : ParseState),
      lines.foldlM (processLine O board wdlOf) st = Except.ok stf →
      StInv O board wdlOf big st → StInv O board wdlOf big stf
  | [], _, st, stf, hfold, h => by
    simp only [List.foldlM_nil] at hfold
    cases hfold
    exact h
  | l :: rest, hsub, st, stf, hfold, h => by
    rw [List.foldlM_cons] at hfold
    cases hstep : processLine O board wdlOf st l with
    | error e =>
      rw [hstep] at hfold
      exact Except.noConfusion hfold
    | ok st1 =>
      rw [hstep] at hfold
      exact stInv_foldlM rest (fun x hx => hsub x (List.mem_cons_of_mem _ hx))
        st1 stf hfold
        (stInv_processLine (hsub l (List.mem_cons_self _ _)) hstep h)

theorem filterMap_lookup_map_rank (cands : List (Nat × MoveCandidate))
    (hrank : ∀ p ∈ cands, (p.2).rank = p.1) (ks : List Nat)
    (hks : ∀ k ∈ ks, k ∈ cands.map Prod.fst) :
    (ks.filterMap (fun k => List.lookup k cands)).map (fun c => c.rank) = ks := by
  induction ks with
  | nil => simp
  | cons k rest ih =>
    obtain ⟨v, hv⟩ := lookup_of_mem_keys (hks k (List.mem_cons_self _ _))
    have hvmem : (k, v) ∈ cands := lookup_mem hv
    have : v.rank = k := hrank (k, v) hvmem
    simp only [List.filterMap_cons, hv, List.map_cons, this]
    rw [ih (fun x hx => hks x (List.mem_cons_of_mem _ hx))]

/-- Characterization of the candidate list assembled from a fold state
satisfying the dictionary invariant: the ranks are the sorted surviving
keys, and every candidate is the parsed content of some info line whose
multipv index is the candidate's rank. -/
theorem analysisOfState_inv {B M : Type} {O : ChessOracle B M} {board : B}
    {wdlOf : Int → Int × Int × Int} {big : List InfoLine} (fen : String)
    (st : ParseState) (hinv : StInv O board wdlOf big st) :
    (((analysisOfState fen st).candidates.map (fun c => c.rank)).Sorted
      (fun a b => a < b)) ∧
    ∀ c ∈ (analysisOfState fen st).candidates,
      ∃ l ∈ big, l.multipv = some c.rank ∧
        lineCandidate O board wdlOf l c.rank = Except.ok (some c) := by
  have hrank : ∀ p ∈ st.candidates, (p.2).rank = p.1 := by
    intro p hp
    obtain ⟨l, _, _, hc⟩ := hinv.2 p hp
    exact (lineCandidate_fields hc).1
  have hperm : (List.insertionSort (fun a b => a ≤ b) (st.candidates.map Prod.fst)).Perm
      (st.candidates.map Prod.fst) := List.perm_insertionSort _ _
  have hsorted_le : (List.insertionSort (fun a b => a ≤ b)
      (st.candidates.map Prod.fst)).Sorted (fun a b => a ≤ b) :=
    List.sorted_insertionSort _ _
  have hnodup : (List.insertionSort (fun a b => a ≤ b)
      (st.candidates.map Prod.fst)).Nodup := hperm.nodup_iff.mpr hinv.1
  have hsorted_lt : (List.insertionSort (fun a b => a ≤ b)
      (st.candidates.map Prod.fst)).Sorted (fun a b => a < b) :=
    List.Sorted.lt_of_le hsorted_le hnodup
  have hks : ∀ k ∈ List.insertionSort (fun a b => a ≤ b) (st.candidates.map Prod.fst),
      k ∈ st.candidates.map Prod.fst := fun k hk => hperm.mem_iff.mp hk
  have hcand : (analysisOfState fen st).candidates =
      (List.insertionSort (fun a b => a ≤ b) (st.candidates.map Prod.fst)).filterMap
        (fun k => List.lookup k st.candidates) := rfl
  constructor
  · rw [hcand, filterMap_lookup_map_rank st.candidates hrank _ hks]
    exact hsorted_lt
  · intro c hc
    rw [hcand] at hc
    obtain ⟨k, hk, hlook⟩ := List.mem_filterMap.mp hc
    have hmem : (k, c) ∈ st.candidates := lookup_mem hlook
    have hck : c.rank = k := hrank (k, c) hmem
    obtain ⟨l, hlmem, hlm, hlc⟩ := hinv.2 (k, c) hmem
    exact ⟨l, hlmem, hck ▸ hlm, hck ▸ hlc⟩

/-- Master characterization of a successful `_parse_analysis` run. -/
theorem parseAnalysis_master {B M : Type} (O : ChessOracle B M)
    (wdlOf : Int → Int × Int × Int) (fen : String) (info_lines : List InfoLine)
    (bestmove_line : String) (A : PositionAnalysis)
    (hok : parseAnalysis O wdlOf fen info_lines bestmove_line = Except.ok A) :
    ((A.candidates.map (fun c => c.rank)).Sorted (fun a b => a < b)) ∧
    ∀ c ∈ A.candidates, ∃ l ∈ info_lines, l.multipv = some c.rank ∧
      lineCandidate O (O.boardOfFen fen) wdlOf l c.rank = Except.ok (some c) := by
  simp only [parseAnalysis] at hok
  cases hfold : info_lines.foldlM (processLine O (O.boardOfFen fen) wdlOf)
      ParseState.init with
  | error e =>
    rw [hfold] at hok
    exact Except.noConfusion hok
  | ok st =>
    rw [hfold] at hok
    have hok2 : Except.ok (analysisOfState fen st) = Except.ok A := hok
    cases hok2
    exact analysisOfState_inv fen st
      (stInv_foldlM info_lines (fun _ hx => hx) ParseState.init st hfold
        (stInv_init O (O.boardOfFen fen) wdlOf info_lines))


/-- Auxiliary arithmetic fact for `_estimate_wdl`: with a win probability
in (0,1) and a positive draw probability, the two floored per-mille values
are non-negative and sum strictly below 1000. -/
theorem wdl_floor_bounds (wp dp : ℝ) (hwp0 : 0 < wp) (hwp1 : wp < 1) (hdp : 0 < dp) :
    0 ≤ ⌊wp / (wp + dp + (1 - wp)) * 1000⌋ ∧
    0 ≤ ⌊dp / (wp + dp + (1 - wp)) * 1000⌋ ∧
    ⌊wp / (wp + dp + (1 - wp)) * 1000⌋ + ⌊dp / (wp + dp + (1 - wp)) * 1000⌋ < 1000 := by
  have htot : wp + dp + (1 - wp) = 1 + dp := by ring
  have htot_pos : (0 : ℝ) < wp + dp + (1 - wp) := by rw [htot]; linarith
  have h1 : 0 ≤ wp / (wp + dp + (1 - wp)) * 1000 := by
    have := div_nonneg (le_of_lt hwp0) (le_of_lt htot_pos)
    linarith
  have h2 : 0 ≤ dp / (wp + dp + (1 - wp)) * 1000 := by
    have := div_nonneg (le_of_lt hdp) (le_of_lt htot_pos)
    linarith
  refine ⟨Int.floor_nonneg.mpr h1, Int.floor_nonneg.mpr h2, ?_⟩
  have hsum : wp / (wp + dp + (1 - wp)) * 1000 + dp / (wp + dp + (1 - wp)) * 1000 < 1000 := by
    rw [div_mul_eq_mul_div, div_mul_eq_mul_div, div_add_div_same, div_lt_iff htot_pos]
    rw [htot]
    nlinarith
  have hcast : ((⌊wp / (wp + dp + (1 - wp)) * 1000⌋ +
      ⌊dp / (wp + dp + (1 - wp)) * 1000⌋ : Int) : ℝ) < 1000 := by
    push_cast
    have ha := Int.floor_le (wp / (wp + dp + (1 - wp)) * 1000)
    have hb := Int.floor_le (dp / (wp + dp + (1 - wp)) * 1000)
    linarith
  exact_mod_cast hcast

/-- C7: for every centipawn score, `_estimate_wdl` returns three
non-negative integers summing to exactly 1000, with the loss component
computed as the remainder 1000 minus win minus draw. -/
theorem c7_estimate_wdl_triple (score_cp : Int) :
    0 ≤ (estimate_wdl score_cp).1 ∧ 0 ≤ (estimate_wdl score_cp).2.1 ∧
    0 ≤ (estimate_wdl score_cp).2.2 ∧
    (estimate_wdl score_cp).1 + (estimate_wdl score_cp).2.1 +
      (estimate_wdl score_cp).2.2 = 1000 ∧
    (estimate_wdl score_cp).2.2 =
      1000 - (estimate_wdl score_cp).1 - (estimate_wdl score_cp).2.1 := by
  have hexp1 : 0 < Real.exp (-((score_cp : ℝ) / 100) * 0.5) := Real.exp_pos _
  have hexp2 : 0 < Real.exp (-|(score_cp : ℝ) / 100| * 0.3) := Real.exp_pos _
  have hwp0 : 0 < 1 / (1 + Real.exp (-((score_cp : ℝ) / 100) * 0.5)) := by
    apply div_pos one_pos
    linarith
  have hwp1 : 1 / (1 + Real.exp (-((score_cp : ℝ) / 100) * 0.5)) < 1 := by
    rw [div_lt_one (by linarith)]
    linarith
  have hdp : 0 < 0.3 * Real.exp (-|(score_cp : ℝ) / 100| * 0.3) := by
    have : (0 : ℝ) < 0.3 := by norm_num
    exact mul_pos this hexp2
  obtain ⟨h1, h2, h3⟩ := wdl_floor_bounds _ _ hwp0 hwp1 hdp
  simp only [estimate_wdl]
  exact ⟨h1, h2, by linarith, by ring_nf, by ring⟩

theorem waitFor_ne_timedOut (expected : String) (input : List String) :
    waitFor expected input ≠ WaitOutcome.timedOut := by
  induction input with
  | nil => simp [waitFor]
  | cons l rest ih =>
    simp only [waitFor]
    by_cases h : startsWithStr l expected = true
    · simp [h]
    · simp only [h, if_false, Bool.false_eq_true]
      cases hw : waitFor expected rest with
      | found ls => simp
      | timedOut => exact absurd hw ih
      | hangs => simp

theorem readUntilBestmove_ne_timedOut (input : List String) :
    readUntilBestmove input ≠ ReadOutcome.timedOut := by
  induction input with
  | nil => simp [readUntilBestmove]
  | cons l rest ih =>
    simp only [readUntilBestmove]
    by_cases h1 : (startsWithStr l "info" && containsPv l) = true
    · simp only [h1, if_true]
      cases hw : readUntilBestmove rest with
      | found ls bm => simp
      | timedOut => exact absurd hw ih
      | hangs => simp
    · simp only [h1, if_false, Bool.false_eq_true]
      by_cases h2 : startsWithStr l "bestmove" = true
      · simp [h2]
      · simp only [h2, if_false, Bool.false_eq_true]
        exact ih

theorem waitFor_found_spec (expected : String) (input : List String)
    (ls : List String) (h : waitFor expected input = WaitOutcome.found ls) :
    ls = input.take ls.length ∧
    ∃ sentinel, ls.getLast? = some sentinel ∧
      startsWithStr sentinel expected = true := by
  induction input generalizing ls with
  | nil => simp [waitFor] at h
  | cons l rest ih =>
    simp only [waitFor] at h
    by_cases hs : startsWithStr l expected = true
    · rw [if_pos hs] at h
      have hls : ls = [l] := by
        cases h
        rfl
      subst hls
      exact ⟨rfl, l, rfl, hs⟩
    · rw [if_neg hs] at h
      cases hw : waitFor expected rest with
      | found ls0 =>
        rw [hw] at h
        have hls : ls = l :: ls0 := by
          cases h
          rfl
        subst hls
        obtain ⟨h1, sentinel, h2, h3⟩ := ih ls0 hw
        refine ⟨?_, sentinel, ?_, h3⟩
        · simp only [List.length_cons, List.take_succ_cons]
          rw [← h1]
        · cases ls0 with
          | nil => simp at h2
          | cons x xs => rw [List.getLast?_cons_cons]; exact h2
      | timedOut => rw [hw] at h; cases h
      | hangs => rw [hw] at h; cases h

theorem waitFor_finds (expected : String) (input : List String)
    (h : ∃ sentinel ∈ input, startsWithStr sentinel expected = true) :
    ∃ ls, waitFor expected input = WaitOutcome.found ls := by
  induction input with
  | nil => simp at h
  | cons l rest ih =>
    by_cases hs : startsWithStr l expected = true
    · exact ⟨[l], by simp [waitFor, hs]⟩
    · obtain ⟨x, hx, hxs⟩ := h
      rcases List.mem_cons.mp hx with rfl | hx0
      · exact absurd hxs hs
      · obtain ⟨ls, hls⟩ := ih ⟨x, hx0, hxs⟩
        exact ⟨l :: ls, by simp [waitFor, hs, hls]⟩

theorem readUntilBestmove_found_spec (input : List String) (ls : List String)
    (bm : String) (h : readUntilBestmove input = ReadOutcome.found ls bm) :
    startsWithStr bm "bestmove" = true ∧
    ∀ x ∈ ls, startsWithStr x "info" = true ∧ containsPv x = true := by
  induction input generalizing ls bm with
  | nil => simp [readUntilBestmove] at h
  | cons l rest ih =>
    simp only [readUntilBestmove] at h
    by_cases h1 : (startsWithStr l "info" && containsPv l) = true
    · rw [if_pos h1] at h
      cases hw : readUntilBestmove rest with
      | found ls0 bm0 =>
        rw [hw] at h
        have hls : ls = l :: ls0 ∧ bm = bm0 := by
          cases h
          exact ⟨rfl, rfl⟩
        obtain ⟨hls, hbm⟩ := hls
        subst hls
        subst hbm
        obtain ⟨hb, hall⟩ := ih ls0 bm hw
        refine ⟨hb, fun x hx => ?_⟩
        rcases List.mem_cons.mp hx with rfl | hx0
        · simpa [Bool.and_eq_true] using h1
        · exact hall x hx0
      | timedOut => rw [hw] at h; cases h
      | hangs => rw [hw] at h; cases h
    · rw [if_neg h1] at h
      by_cases h2 : startsWithStr l "bestmove" = true
      · rw [if_pos h2] at h
        have hls : ls = [] ∧ bm = l := by
          cases h
          exact ⟨rfl, rfl⟩
        obtain ⟨hls, hbm⟩ := hls
        subst hls
        subst hbm
        exact ⟨h2, fun x hx => by simp at hx⟩
      · rw [if_neg h2] at h
        exact ih ls bm h

/-- C3 (corrected): the sentinel-wait loops `_wait_for` and
`_read_until_bestmove` have no deadline at all: they never produce a
timeout outcome; when the sentinel arrives they return exactly the
collected prefix of the stream ending at the sentinel (respectively the
captured info lines plus the bestmove line); when it never arrives they
simply never return. -/
theorem c3_sentinel_waits_have_no_deadline (expected : String) (input : List String) :
    waitFor expected input ≠ WaitOutcome.timedOut ∧
    readUntilBestmove input ≠ ReadOutcome.timedOut ∧
    (∀ ls, waitFor expected input = WaitOutcome.found ls →
      ls = input.take ls.length ∧
      ∃ sentinel, ls.getLast? = some sentinel ∧
        startsWithStr sentinel expected = true) ∧
    ((∃ sentinel ∈ input, startsWithStr sentinel expected = true) →
      ∃ ls, waitFor expected input = WaitOutcome.found ls) ∧
    (∀ ls bm, readUntilBestmove input = ReadOutcome.found ls bm →
      startsWithStr bm "bestmove" = true ∧
      ∀ x ∈ ls, startsWithStr x "info" = true ∧ containsPv x = true) :=
  ⟨waitFor_ne_timedOut expected input, readUntilBestmove_ne_timedOut input,
   fun ls h => waitFor_found_spec expected input ls h,
   fun h => waitFor_finds expected input h,
   fun ls bm h => readUntilBestmove_found_spec input ls bm h⟩

/-- C3 counterexample: on a stream whose buffered content never contains
the sentinel, the wait loops neither return nor produce any timeout error
(they hang); the claimed `ProtocolTimeout` outcome does not exist in the
code. -/
theorem c3_counterexample :
    waitFor "readyok" ["info string hello"] = WaitOutcome.hangs ∧
    WaitOutcome.hangs ≠ WaitOutcome.timedOut ∧
    readUntilBestmove ["info depth 1 multipv 1 pv e2e4"] = ReadOutcome.hangs ∧
    ReadOutcome.hangs ≠ ReadOutcome.timedOut :=
  ⟨by decide, by decide, by decide, by decide⟩

/-- C3 witness: the amended theorem applied to a concrete stream where the
sentinel arrives as the second line. -/
theorem c3_witness :
    waitFor "readyok" ["info a", "readyok ok"] =
      WaitOutcome.found ["info a", "readyok ok"] ∧
    ((["info a", "readyok ok"] : List String) =
      (["info a", "readyok ok"] : List String).take
        (["info a", "readyok ok"] : List String).length ∧
    ∃ sentinel, (["info a", "readyok ok"] : List String).getLast? = some sentinel ∧
      startsWithStr sentinel "readyok" = true) :=
  ⟨by decide,
   (c3_sentinel_waits_have_no_deadline "readyok" ["info a", "readyok ok"]).2.2.1
     ["info a", "readyok ok"] (by decide)⟩

/-- C5 (corrected): `is_ready` returns false without touching the process
when the readiness flag is unset, and true when the probe succeeds; but a
probe failure on a started adapter is NOT converted to false — the method
has no exception handler, so the failure propagates to the caller. -/
theorem c5_is_ready_propagates_probe_failure (st : EngineState)
    (probe : Except String Unit) :
    (st.is_ready = false → isReadyCheck st probe = Except.ok false) ∧
    (st.is_ready = true → probe = Except.ok () →
      isReadyCheck st probe = Except.ok true) ∧
    (∀ e, st.is_ready = true → probe = Except.error e →
      isReadyCheck st probe = Except.error e) := by
  refine ⟨fun h => ?_, fun h hp => ?_, fun e h hp => ?_⟩
  · simp [isReadyCheck, h]
  · simp [isReadyCheck, h, hp]
  · simp [isReadyCheck, h, hp]

/-- C5 counterexample: on a started adapter whose probe fails (dead pipe),
`is_ready` surfaces the error instead of returning false, contradicting
the claim that every internal failure is converted to a false result. -/
theorem c5_counterexample :
    isReadyCheck exReadyState (Except.error "broken pipe") =
      Except.error "broken pipe" ∧
    isReadyCheck exReadyState (Except.error "broken pipe") ≠
      Except.ok false := by
  refine ⟨by rfl, fun h => ?_⟩
  rw [show isReadyCheck exReadyState (Except.error "broken pipe") =
    Except.error "broken pipe" from rfl] at h
  exact Except.noConfusion h

/-- C5 witness: the amended theorem applied to a never-started adapter and
to a ready adapter with a successful probe. -/
theorem c5_witness :
    exStoppedState.is_ready = false ∧
    isReadyCheck exStoppedState (Except.ok ()) = Except.ok false ∧
    isReadyCheck exReadyState (Except.ok ()) = Except.ok true :=
  ⟨rfl,
   (c5_is_ready_propagates_probe_failure exStoppedState (Except.ok ())).1 rfl,
   (c5_is_ready_propagates_probe_failure exReadyState (Except.ok ())).2.1 rfl rfl⟩

/-- C6 (corrected): `stop` is a no-op without a process handle; with a live
process whose quit write succeeds it always clears the handles and resets
state (gracefully within the grace period, by forced kill otherwise), and a
second stop on the cleared state is a no-op; but if the quit write itself
raises, the exception propagates and the handles are NOT cleared. -/
theorem c6_stop_clears_unless_quit_write_fails (st : EngineState)
    (writeOk exitsWithinGrace : Bool) :
    (st.process = false →
      stopEngine st writeOk exitsWithinGrace = (Except.ok (), st, [])) ∧
    (st.process = true → st.writer = true → writeOk = true →
      exitsWithinGrace = true →
      stopEngine st writeOk exitsWithinGrace =
        (Except.ok (), clearedState st, [StopAction.sendQuit])) ∧
    (st.process = true → st.writer = true → writeOk = true →
      exitsWithinGrace = false →
      stopEngine st writeOk exitsWithinGrace =
        (Except.ok (), clearedState st,
          [StopAction.sendQuit, StopAction.killProcess])) ∧
    (st.process = true → st.writer = true → writeOk = false →
      stopEngine st writeOk exitsWithinGrace =
        (Except.error "stream write failed", st, [StopAction.sendQuit])) ∧
    stopEngine (clearedState st) writeOk exitsWithinGrace =
      (Except.ok (), clearedState st, []) := by
  refine ⟨fun h => ?_, fun hp hw hok hg => ?_, fun hp hw hok hg => ?_,
    fun hp hw hok => ?_, ?_⟩
  · simp [stopEngine, h]
  · simp [stopEngine, hp, hw, hok, hg]
  · simp [stopEngine, hp, hw, hok, hg]
  · simp [stopEngine, hp, hw, hok]
  · simp [stopEngine, clearedState]

/-- C6 counterexample: when the quit write raises (dead pipe), `stop`
fails and leaves the process and stream handles in place, so the state is
not reset to stopped and a second stop is not a no-op — contradicting
`stop never fails` and `always clears handles on every path`. -/
theorem c6_counterexample :
    stopEngine exReadyState false true =
      (Except.error "stream write failed", exReadyState, [StopAction.sendQuit]) ∧
    exReadyState.process = true ∧ exReadyState.is_ready = true ∧
    (stopEngine exReadyState false true).1 ≠ Except.ok () := by
  refine ⟨by rfl, rfl, rfl, fun h => ?_⟩
  rw [show (stopEngine exReadyState false true).1 =
    Except.error "stream write failed" from rfl] at h
  exact Except.noConfusion h

/-- C6 witness: the amended theorem applied to the ready state for the
forced-termination path, followed by the no-op second stop. -/
theorem c6_witness :
    stopEngine exReadyState true false =
      (Except.ok (), clearedState exReadyState,
        [StopAction.sendQuit, StopAction.killProcess]) ∧
    stopEngine (clearedState exReadyState) true false =
      (Except.ok (), clearedState exReadyState, []) :=
  ⟨(c6_stop_clears_unless_quit_write_fails exReadyState true false).2.2.1
     rfl rfl rfl rfl,
   (c6_stop_clears_unless_quit_write_fails exReadyState true false).2.2.2.2⟩

/-- C10: calling `analyze_position` on an adapter that is not ready fails
with the not-started error after acquiring and releasing the lock, with no
command sent and the adapter state unchanged. -/
theorem c10_analyze_position_not_ready {B M : Type} (O : ChessOracle B M)
    (wdlOf : Int → Int × Int × Int) (st : EngineState) (fen : String)
    (nodes depth time_ms num_moves : Option Nat)
    (readResult : Except String (List InfoLine × String))
    (h : st.is_ready = false) :
    analyzePosition O wdlOf st fen nodes depth time_ms num_moves readResult =
      (Except.error "Stockfish non pronto, chiamare start() prima", st,
        [UciEvent.lockAcquire, UciEvent.lockRelease]) := by
  simp [analyzePosition, h]

/-- C10 witness: the theorem applied to a concrete never-started adapter
state. -/
theorem c10_witness :
    exStoppedState.is_ready = false ∧
    analyzePosition exOracle exWdl exStoppedState "f" none none none none
        (Except.ok ([], "bestmove")) =
      (Except.error "Stockfish non pronto, chiamare start() prima",
       exStoppedState, [UciEvent.lockAcquire, UciEvent.lockRelease]) :=
  ⟨rfl,
   c10_analyze_position_not_ready exOracle exWdl exStoppedState "f"
     none none none none (Except.ok ([], "bestmove")) rfl⟩

/-- C4 (corrected): when the requested candidate count differs from the
configured MultiPV, `analyze_position` sends the temporary MultiPV
setoption and, on the successful path, sends the restore setoption before
returning; but when the read of the search output raises, the error
propagates without the restore command ever being sent (there is no
try/finally around the reconfiguration).  The in-memory configured value
is unchanged on both paths. -/
theorem c4_multipv_restore_only_on_success {B M : Type} (O : ChessOracle B M)
    (wdlOf : Int → Int × Int × Int) (st : EngineState) (fen : String)
    (nodes depth time_ms : Option Nat) (n : Nat) (infos : List InfoLine)
    (bm : String) (e : String) (hready : st.is_ready = true)
    (hne : n ≠ st.multipv) :
    analyzePosition O wdlOf st fen nodes depth time_ms (some n)
        (Except.ok (infos, bm)) =
      (parseAnalysis O wdlOf fen infos bm, st,
        [UciEvent.lockAcquire,
         UciEvent.send (String.append "setoption name MultiPV value " (toString n)),
         UciEvent.send (String.append "position fen " fen),
         UciEvent.send (goCommand nodes depth time_ms),
         UciEvent.send (String.append "setoption name MultiPV value "
           (toString st.multipv)),
         UciEvent.lockRelease]) ∧
    analyzePosition O wdlOf st fen nodes depth time_ms (some n)
        (Except.error e) =
      (Except.error e, st,
        [UciEvent.lockAcquire,
         UciEvent.send (String.append "setoption name MultiPV value " (toString n)),
         UciEvent.send (String.append "position fen " fen),
         UciEvent.send (goCommand nodes depth time_ms),
         UciEvent.lockRelease]) := by
  constructor
  · simp only [analyzePosition, hready, hne]
    simp [hready, hne]
    exact ⟨rfl, rfl, rfl⟩
  · simp only [analyzePosition, hready, hne]
    simp [hready, hne]
    exact ⟨rfl, rfl⟩

/-- C4 counterexample: on the failing read path the restore command for
the configured MultiPV value 10 is never sent — the trace contains the
temporary `setoption` to 3 but no `setoption` back to 10 — contradicting
`restores the previous value on every exit path`. -/
theorem c4_counterexample :
    (analyzePosition exOracle exWdl exReadyState "f" none none none (some 3)
      (Except.error "stream closed")).2.2 =
      [UciEvent.lockAcquire, UciEvent.send "setoption name MultiPV value 3",
       UciEvent.send "position fen f", UciEvent.send "go depth 20",
       UciEvent.lockRelease] ∧
    UciEvent.send "setoption name MultiPV value 10" ∉
      (analyzePosition exOracle exWdl exReadyState "f" none none none (some 3)
        (Except.error "stream closed")).2.2 ∧
    (analyzePosition exOracle exWdl exReadyState "f" none none none (some 3)
      (Except.error "stream closed")).1 = Except.error "stream closed" := by
  refine ⟨by decide, by decide, by rfl⟩

/-- C4 witness: the amended theorem applied to a concrete ready adapter:
the successful path sends both the temporary and the restore setoption. -/
theorem c4_witness :
    exReadyState.is_ready = true ∧ 3 ≠ exReadyState.multipv ∧
    analyzePosition exOracle exWdl exReadyState "f" none none none (some 3)
        (Except.ok ([], "bestmove e2e4")) =
      (parseAnalysis exOracle exWdl "f" [] "bestmove e2e4",
       exReadyState,
       [UciEvent.lockAcquire,
        UciEvent.send (String.append "setoption name MultiPV value " (toString 3)),
        UciEvent.send (String.append "position fen " "f"),
        UciEvent.send (goCommand none none none),
        UciEvent.send (String.append "setoption name MultiPV value "
          (toString exReadyState.multipv)),
        UciEvent.lockRelease]) :=
  ⟨rfl, by decide,
   (c4_multipv_restore_only_on_success exOracle exWdl exReadyState "f"
     none none none 3 [] "bestmove e2e4" "unused" rfl (by decide)).1⟩

theorem processLine_insert {B M : Type} {O : ChessOracle B M} {board : B}
    {wdlOf : Int → Int × Int × Int} {l : InfoLine} {idx : Nat}
    {c : MoveCandidate} (st : ParseState) (hm : l.multipv = some idx)
    (hc : lineCandidate O board wdlOf l idx = Except.ok (some c)) :
    ∃ st1, processLine O board wdlOf st l = Except.ok st1 ∧
      st1.candidates = dictInsert idx c st.candidates := by
  simp only [processLine, hm, hc]
  exact ⟨_, rfl, rfl⟩

theorem analysisOfState_eval_cp (fen : String) (st : ParseState) :
    (analysisOfState fen st).evaluation_cp =
      match (analysisOfState fen st).candidates.head? with
      | some c => c.score_cp
      | none => 0 := rfl

theorem analysisOfState_eval_wdl (fen : String) (st : ParseState) :
    (analysisOfState fen st).evaluation_wdl =
      match (analysisOfState fen st).candidates.head? with
      | some c => c.score_wdl
      | none => (333, 334, 333) := rfl

theorem foldlM_candidates_nil {B M : Type} (O : ChessOracle B M) (board : B)
    (wdlOf : Int → Int × Int × Int) :
    ∀ (lines : List InfoLine) (st : ParseState), st.candidates = [] →
      (∀ l ∈ lines, ∀ idx, l.multipv = some idx →
        lineCandidate O board wdlOf l idx = Except.ok none) →
      ∃ stf, lines.foldlM (processLine O board wdlOf) st = Except.ok stf ∧
        stf.candidates = []
  | [], st, hst, _ => ⟨st, rfl, hst⟩
  | l :: rest, st, hst, h => by
    have hstep : ∃ st1, processLine O board wdlOf st l = Except.ok st1 ∧
        st1.candidates = [] := by
      cases hm : l.multipv with
      | none =>
        refine ⟨st, ?_, hst⟩
        simp [processLine, hm]
      | some idx =>
        have hc := h l (List.mem_cons_self _ _) idx hm
        simp only [processLine, hm, hc]
        exact ⟨_, rfl, hst⟩
    obtain ⟨st1, hs1, hc1⟩ := hstep
    obtain ⟨stf, hf, hcf⟩ := foldlM_candidates_nil O board wdlOf rest st1 hc1
      (fun x hx idx hm => h x (List.mem_cons_of_mem _ hx) idx hm)
    refine ⟨stf, ?_, hcf⟩
    rw [List.foldlM_cons, hs1]
    exact hf

theorem parseAnalysis_candidates_nil {B M : Type} (O : ChessOracle B M)
    (wdlOf : Int → Int × Int × Int) (fen : String) (info_lines : List InfoLine)
    (bestmove_line : String)
    (h : ∀ l ∈ info_lines, ∀ idx, l.multipv = some idx →
      lineCandidate O (O.boardOfFen fen) wdlOf l idx = Except.ok none) :
    ∃ A, parseAnalysis O wdlOf fen info_lines bestmove_line = Except.ok A ∧
      A.candidates = [] := by
  obtain ⟨stf, hf, hcf⟩ := foldlM_candidates_nil O (O.boardOfFen fen) wdlOf
    info_lines ParseState.init rfl h
  refine ⟨analysisOfState fen stf, ?_, ?_⟩
  · simp only [parseAnalysis]
    rw [hf]
    rfl
  · have hexp : (analysisOfState fen stf).candidates =
        (List.insertionSort (fun a b => a ≤ b)
          (stf.candidates.map Prod.fst)).filterMap
          (fun k => List.lookup k stf.candidates) := rfl
    rw [hexp, hcf]
    rfl

/-- C1 (corrected): every successfully parsed analysis has its candidate
list sorted with strictly increasing (hence unique) ranks, each
candidate's rank being its original MultiPV index; an index whose lines
never carry a parseable head move (empty variation, or a head on which
`from_uci` raises) produces no candidate — indices whose heads parse,
including the null move and illegal-but-renderable moves, DO produce
candidates — and the surviving indices are NOT re-labelled to contiguous
1..N: a dropped middle index leaves a gap in the rank sequence. -/
theorem c1_ranks_sorted_unique_not_relabelled {B M : Type} (O : ChessOracle B M)
    (wdlOf : Int → Int × Int × Int) (fen : String) (info_lines : List InfoLine)
    (bestmove_line : String) (A : PositionAnalysis)
    (hok : parseAnalysis O wdlOf fen info_lines bestmove_line = Except.ok A) :
    ((A.candidates.map (fun c => c.rank)).Sorted (fun a b => a < b)) ∧
    (∀ c ∈ A.candidates, c.rank = c.multipv_index ∧
      ∃ l ∈ info_lines, l.multipv = some c.rank ∧
        lineCandidate O (O.boardOfFen fen) wdlOf l c.rank = Except.ok (some c)) ∧
    (∀ idx, (∀ l ∈ info_lines, l.multipv = some idx →
        lineCandidate O (O.boardOfFen fen) wdlOf l idx = Except.ok none) →
      ∀ c ∈ A.candidates, c.rank ≠ idx) := by
  obtain ⟨hs, hmem⟩ :=
    parseAnalysis_master O wdlOf fen info_lines bestmove_line A hok
  refine ⟨hs, fun c hc => ?_, fun idx hfail c hc heq => ?_⟩
  · obtain ⟨l, hl, hlm, hlc⟩ := hmem c hc
    exact ⟨((lineCandidate_fields hlc).2.1).symm, l, hl, hlm, hlc⟩
  · obtain ⟨l, hl, hlm, hlc⟩ := hmem c hc
    rw [heq] at hlm hlc
    rw [hfail l hl hlm] at hlc
    simp at hlc

/-- C1 counterexample: with lines for MultiPV indices 1, 2 and 3 where
the index-2 line's head move fails `from_uci`, the surviving candidates
keep ranks [1, 3] — not the contiguous re-labelling [1, 2] the claim
requires. -/
theorem c1_counterexample :
    (parseAnalysis exOracle exWdl "startpos"
      [exLine 1 30 ["e2e4"], exLine 2 10 ["zz"], exLine 3 5 ["d2d4"]]
      "bestmove e2e4").map
      (fun A => (A.candidates.map (fun c => c.rank),
                 List.range' 1 A.candidates.length)) =
      Except.ok ([1, 3], [1, 2]) ∧
    ([1, 3] : List Nat) ≠ [1, 2] :=
  ⟨by decide, by decide⟩

/-- C1 witness: the amended theorem applied to a concrete single-line
parse. -/
theorem c1_witness :
    parseAnalysis exOracle exWdl "startpos" [exLine 1 30 ["e2e4"]]
      "bestmove e2e4" = Except.ok exAnalysis1 ∧
    (exAnalysis1.candidates.map (fun c => c.rank)).Sorted (fun a b => a < b) ∧
    exCand1.rank = exCand1.multipv_index :=
  ⟨by decide,
   (c1_ranks_sorted_unique_not_relabelled exOracle exWdl "startpos"
     [exLine 1 30 ["e2e4"]] "bestmove e2e4" exAnalysis1 (by decide)).1,
   ((c1_ranks_sorted_unique_not_relabelled exOracle exWdl "startpos"
     [exLine 1 30 ["e2e4"]] "bestmove e2e4" exAnalysis1 (by decide)).2.1
     exCand1 (by decide)).1⟩

/-- C2 (corrected): for every candidate of a successfully parsed
analysis, the human-notation variation `pv_san` is the legality-checked
walked conversion of the stored coordinate variation — truncated at the
first missing, malformed or illegal move, and of full length when the
variation is fully legal — but the stored coordinate variation `pv` is
the info line's FULL move list: only the human-notation side is
truncated. -/
theorem c2_pv_san_truncated_pv_full {B M : Type} (O : ChessOracle B M)
    (wdlOf : Int → Int × Int × Int) (fen : String) (info_lines : List InfoLine)
    (bestmove_line : String) (A : PositionAnalysis)
    (hok : parseAnalysis O wdlOf fen info_lines bestmove_line = Except.ok A) :
    ∀ c ∈ A.candidates,
      c.pv_san = pvToSan O (O.boardOfFen fen) c.pv ∧
      (∃ l ∈ info_lines, l.pv = some c.pv) ∧
      (walkLegal O (O.boardOfFen fen) c.pv = true →
        c.pv_san.length = c.pv.length) ∧
      (∀ pre u rest, c.pv = pre ++ u :: rest →
        walkLegal O (O.boardOfFen fen) pre = true →
        moveFails O (pushAll O (O.boardOfFen fen) pre) u = true →
        c.pv_san.length = pre.length) := by
  intro c hc
  obtain ⟨_, hmem⟩ :=
    parseAnalysis_master O wdlOf fen info_lines bestmove_line A hok
  obtain ⟨l, hl, hlm, hlc⟩ := hmem c hc
  obtain ⟨_, _, hpv, hpvsan, _, _, _, _, ⟨rest0, hpv_cons⟩, _⟩ :=
    lineCandidate_fields hlc
  refine ⟨hpvsan, ⟨l, hl, ?_⟩, fun hleg => ?_, fun pre u rest hdec hpre hfail => ?_⟩
  · cases hlpv : l.pv with
    | none =>
      rw [hlpv] at hpv
      simp only [Option.getD_none] at hpv
      rw [hpv] at hpv_cons
      cases hpv_cons
    | some mvs =>
      rw [hlpv] at hpv
      simp only [Option.getD_some] at hpv
      rw [hpv]
  · rw [hpvsan]
    exact pvToSan_length_of_walkLegal O (O.boardOfFen fen) c.pv hleg
  · rw [hpvsan, hdec, pvToSan_append_fail O (O.boardOfFen fen) pre u rest hpre hfail]
    exact pvToSan_length_of_walkLegal O (O.boardOfFen fen) pre hpre

/-- C2 counterexample: a variation whose second move is malformed is
truncated to length 1 in human notation only; the coordinate variation
keeps all three moves, contradicting the claim that both are truncated
to the legal prefix. -/
theorem c2_counterexample :
    (parseAnalysis exOracle exWdl "startpos"
      [exLine 1 30 ["e2e4", "zz", "d2d4"]] "bestmove e2e4").map
      (fun A => A.candidates.map (fun c => (c.pv, c.pv_san))) =
      Except.ok [(["e2e4", "zz", "d2d4"], ["Se2e4"])] ∧
    (["e2e4", "zz", "d2d4"] : List String).length ≠
      (["Se2e4"] : List String).length :=
  ⟨by decide, by decide⟩

/-- C2 witness: the amended theorem applied to a concrete fully legal
two-move variation, which round-trips to two human-notation moves. -/
theorem c2_witness :
    parseAnalysis exOracle exWdl "startpos" [exLine 1 30 ["e2e4", "d2d4"]]
      "bestmove e2e4" = Except.ok exAnalysis2 ∧
    exCand2 ∈ exAnalysis2.candidates ∧
    walkLegal exOracle (exOracle.boardOfFen "startpos") exCand2.pv = true ∧
    exCand2.pv_san.length = exCand2.pv.length :=
  ⟨by decide, by decide, by decide,
   ((c2_pv_san_truncated_pv_full exOracle exWdl "startpos"
     [exLine 1 30 ["e2e4", "d2d4"]] "bestmove e2e4" exAnalysis2 (by decide))
     exCand2 (by decide)).2.2.1 (by decide)⟩

/-- C8 (corrected): when the LAST line carrying a MultiPV index yields a
parsed candidate — its head move string parses with `from_uci`, including
null and illegal-but-renderable moves, since `board.san` does not check
legality — exactly one candidate survives for that index and it equals
that line's content, overwriting every earlier line with the same index;
but a later line whose head raises in `from_uci` (or has no variation)
does NOT overwrite, and a later head from an empty origin square aborts
the parse entirely. -/
theorem c8_latest_successfully_parsed_line_survives {B M : Type}
    (O : ChessOracle B M) (wdlOf : Int → Int × Int × Int) (fen : String)
    (info_lines : List InfoLine) (l : InfoLine) (idx : Nat) (c : MoveCandidate)
    (bestmove_line : String) (A : PositionAnalysis)
    (hm : l.multipv = some idx)
    (hc : lineCandidate O (O.boardOfFen fen) wdlOf l idx = Except.ok (some c))
    (hok : parseAnalysis O wdlOf fen (info_lines ++ [l]) bestmove_line =
      Except.ok A) :
    c ∈ A.candidates ∧
    ∀ c1 ∈ A.candidates, c1.multipv_index = idx → c1 = c := by
  simp only [parseAnalysis] at hok
  cases hfold : (info_lines ++ [l]).foldlM
      (processLine O (O.boardOfFen fen) wdlOf) ParseState.init with
  | error e =>
    rw [hfold] at hok
    exact Except.noConfusion hok
  | ok st =>
    rw [hfold] at hok
    have hok2 : Except.ok (analysisOfState fen st) = Except.ok A := hok
    cases hok2
    have hsplit : ∃ st0, info_lines.foldlM
        (processLine O (O.boardOfFen fen) wdlOf) ParseState.init =
          Except.ok st0 ∧
        processLine O (O.boardOfFen fen) wdlOf st0 l = Except.ok st := by
      rw [List.foldlM_append] at hfold
      cases hf0 : info_lines.foldlM (processLine O (O.boardOfFen fen) wdlOf)
          ParseState.init with
      | error e =>
        rw [hf0] at hfold
        exact Except.noConfusion hfold
      | ok st0 =>
        rw [hf0] at hfold
        refine ⟨st0, rfl, ?_⟩
        cases hstep : processLine O (O.boardOfFen fen) wdlOf st0 l with
        | error e =>
          have h1 : ([l].foldlM (processLine O (O.boardOfFen fen) wdlOf) st0) =
              (Except.error e : Except String ParseState) := by
            rw [List.foldlM_cons, hstep]
            rfl
          have h2 : (Except.error e : Except String ParseState) =
              Except.ok st := by
            rw [← h1]
            exact hfold
          exact Except.noConfusion h2
        | ok stx =>
          have h1 : ([l].foldlM (processLine O (O.boardOfFen fen) wdlOf) st0) =
              Except.ok stx := by
            rw [List.foldlM_cons, hstep]
            rfl
          have h2 : (Except.ok stx : Except String ParseState) =
              Except.ok st := by
            rw [← h1]
            exact hfold
          cases h2
          rfl
    obtain ⟨st0, hf0, hstep⟩ := hsplit
    obtain ⟨st1, hs1, hc1⟩ := processLine_insert st0 hm hc
    have hsame : st1 = st := by
      have h2 : (Except.ok st1 : Except String ParseState) = Except.ok st :=
        hs1.symm.trans hstep
      injection h2
    subst hsame
    have hinv : StInv O (O.boardOfFen fen) wdlOf (info_lines ++ [l]) st1 :=
      stInv_foldlM (info_lines ++ [l]) (fun _ hx => hx) ParseState.init st1
        hfold (stInv_init O (O.boardOfFen fen) wdlOf (info_lines ++ [l]))
    have hcand : (analysisOfState fen st1).candidates =
        (List.insertionSort (fun a b => a ≤ b)
          (st1.candidates.map Prod.fst)).filterMap
          (fun k => List.lookup k st1.candidates) := rfl
    have hkey : idx ∈ st1.candidates.map Prod.fst := by
      rw [hc1]
      exact (mem_keys_dictInsert idx idx c st0.candidates).mpr (Or.inl rfl)
    have hsortmem : idx ∈ List.insertionSort (fun a b => a ≤ b)
        (st1.candidates.map Prod.fst) :=
      (List.perm_insertionSort _ _).mem_iff.mpr hkey
    have hlook : List.lookup idx st1.candidates = some c := by
      rw [hc1]
      exact lookup_dictInsert idx c st0.candidates
    constructor
    · rw [hcand]
      exact List.mem_filterMap.mpr ⟨idx, hsortmem, hlook⟩
    · intro c1 hc1mem hidx
      rw [hcand] at hc1mem
      obtain ⟨k, _, hlk⟩ := List.mem_filterMap.mp hc1mem
      have hmem2 : (k, c1) ∈ st1.candidates := lookup_mem hlk
      obtain ⟨l1, _, _, hlc1⟩ := hinv.2 (k, c1) hmem2
      have hk_idx : k = idx := ((lineCandidate_fields hlc1).2.1).symm.trans hidx
      subst hk_idx
      have : some c = some c1 := hlook.symm.trans hlk
      injection this with h
      exact h.symm

/-- C8 counterexample: two lines for index 1 where the latest line's head
move `"a1a1"` raises in `from_uci` (equal origin and destination) — the
surviving candidate keeps the EARLIER line's move `"e2e4"` and score 30,
not the latest line's content. -/
theorem c8_counterexample :
    (parseAnalysis exOracle exWdl "startpos"
      [exLine 1 30 ["e2e4"], exLine 1 44 ["a1a1"]] "bestmove e2e4").map
      (fun A => A.candidates.map (fun c => (c.move, c.score_cp))) =
      Except.ok [("e2e4", 30)] ∧
    ("e2e4", (30 : Int)) ≠ ("a1a1", (44 : Int)) :=
  ⟨by decide, by decide⟩

/-- C8 witness: the amended theorem applied to two lines for index 1
where the later head `"e2e5"` is illegal yet renderable: the later line's
content survives alone, overwriting the earlier legal candidate. -/
theorem c8_witness :
    (exLine 1 44 ["e2e5", "d2d4"]).multipv = some 1 ∧
    lineCandidate exOracle (exOracle.boardOfFen "startpos") exWdl
      (exLine 1 44 ["e2e5", "d2d4"]) 1 = Except.ok (some exCand8) ∧
    parseAnalysis exOracle exWdl "startpos"
      ([exLine 1 30 ["e2e4"]] ++ [exLine 1 44 ["e2e5", "d2d4"]])
      "bestmove e2e5" = Except.ok exAnalysis8 ∧
    exCand8 ∈ exAnalysis8.candidates :=
  ⟨rfl, by decide, by decide,
   (c8_latest_successfully_parsed_line_survives exOracle exWdl "startpos"
     [exLine 1 30 ["e2e4"]] (exLine 1 44 ["e2e5", "d2d4"]) 1 exCand8
     "bestmove e2e5" exAnalysis8 rfl (by decide) (by decide)).1⟩

/-- C9 (corrected): for every successfully parsed analysis, the overall
evaluation equals the FIRST candidate's score — the candidate with the
smallest surviving MultiPV index, which need not carry rank 1 — with the
neutral defaults 0 centipawns and (333, 334, 333) when the candidate list
is empty; and when every line's head move fails `from_uci` (or has no
variation) the parse returns successfully with an empty candidate list.
The parse does NOT always return: a head move from an empty origin square
raises an uncaught AssertionError. -/
theorem c9_evaluation_from_first_candidate {B M : Type} (O : ChessOracle B M)
    (wdlOf : Int → Int × Int × Int) (fen : String) (info_lines : List InfoLine)
    (bestmove_line : String) :
    (∀ A, parseAnalysis O wdlOf fen info_lines bestmove_line = Except.ok A →
      (A.candidates = [] → A.evaluation_cp = 0 ∧
        A.evaluation_wdl = (333, 334, 333)) ∧
      (∀ c, A.candidates.head? = some c →
        A.evaluation_cp = c.score_cp ∧ A.evaluation_wdl = c.score_wdl)) ∧
    ((∀ l ∈ info_lines, ∀ idx, l.multipv = some idx →
        lineCandidate O (O.boardOfFen fen) wdlOf l idx = Except.ok none) →
      ∃ A, parseAnalysis O wdlOf fen info_lines bestmove_line = Except.ok A ∧
        A.candidates = []) := by
  constructor
  · intro A hok
    simp only [parseAnalysis] at hok
    cases hfold : info_lines.foldlM (processLine O (O.boardOfFen fen) wdlOf)
        ParseState.init with
    | error e =>
      rw [hfold] at hok
      exact Except.noConfusion hok
    | ok st =>
      rw [hfold] at hok
      have hok2 : Except.ok (analysisOfState fen st) = Except.ok A := hok
      cases hok2
      constructor
      · intro h
        have h1 : (analysisOfState fen st).candidates.head? = none := by
          rw [h]
          rfl
        constructor
        · rw [analysisOfState_eval_cp, h1]
        · rw [analysisOfState_eval_wdl, h1]
      · intro c hcc
        constructor
        · rw [analysisOfState_eval_cp, hcc]
        · rw [analysisOfState_eval_wdl, hcc]
  · exact parseAnalysis_candidates_nil O wdlOf fen info_lines bestmove_line

/-- C9 counterexample: a parse whose only surviving candidate has rank 2
is non-empty yet contains no rank-1 candidate, and the overall evaluation
is taken from the rank-2 candidate — so it cannot equal "the rank-1
candidate's score"; moreover, on a line whose head move comes from an
empty origin square the parse raises instead of returning any
`PositionAnalysis` at all. -/
theorem c9_counterexample :
    (parseAnalysis exOracle exWdl "startpos" [exLine 2 55 ["e2e4"]]
      "bestmove e2e4").map
      (fun A => (A.candidates.map (fun c => c.rank), A.evaluation_cp)) =
      Except.ok ([2], 55) ∧
    ¬ ((parseAnalysis exOracle exWdl "startpos" [exLine 2 55 ["e2e4"]]
      "bestmove e2e4").map
      (fun A => (A.candidates.map (fun c => c.rank)).contains 1) =
      Except.ok true) ∧
    (parseAnalysis exOracle exWdl "startpos" [exLine 1 30 ["h3h4"]]
      "bestmove 0000").toOption = none :=
  ⟨by decide, by decide, by decide⟩

/-- C9 witness: the amended theorem applied to a concrete input whose
only line's head fails `from_uci`: the parse succeeds with empty
candidates and neutral defaults. -/
theorem c9_witness :
    parseAnalysis exOracle exWdl "startpos" [exLine 1 30 ["zz"]]
      "bestmove 0000" = Except.ok exAnalysis9 ∧
    exAnalysis9.candidates = [] ∧ exAnalysis9.evaluation_cp = 0 ∧
    exAnalysis9.evaluation_wdl = (333, 334, 333) := by
  have h := (c9_evaluation_from_first_candidate exOracle exWdl "startpos"
    [exLine 1 30 ["zz"]] "bestmove 0000").1 exAnalysis9 (by decide)
  exact ⟨by decide, rfl, (h.1 rfl).1, (h.1 rfl).2⟩
